import Mathlib

/-!
Shallow embedding of the `iterrator` crate (src/lib.rs): a fallible-iterator
trait `Iterrator` whose `next` returns `Result<Option<Item>, Error>`, the
adaptors `Take` (bounded prefix) and `Map` (element transform), and the
terminal `fold`.

Modelling conventions:
* `next(&mut self)` mutates the receiver; we model it by explicit state
  passing: a step function `S → Except E (Option A) × S`.  `Ok(Some(x))`,
  `Ok(None)` and `Err(e)` become `Except.ok (some x)`, `Except.ok none`
  and `Except.error e`.
* A Rust iterator value is split into its immutable step code (a value of
  `Iterrator S A E`) and its mutable state (a value of `S`).
* An `FnMut` closure is split the same way: static code `FS → A → B × FS`
  plus its captured mutable state `FS`, threaded explicitly.
* `usize` counters are modelled as `Nat`; the one subtraction in the code
  (`self.n -= 1`) is guarded by `self.n != 0`, and `Take.nextChecked` below
  models the checked machine subtraction explicitly so that the absence of
  underflow is a theorem, not an artifact of `Nat` truncation.
* `fold`'s `while` loop may diverge on an unbounded source, so the
  embedding takes fuel; the first component is `none` when the fuel runs
  out before the loop finishes.  The final iterator state is returned
  alongside (Rust drops it; returning it changes nothing observable and
  lets us state frame properties).
-/

set_option autoImplicit false

namespace IterrSpec

universe u

/-- The `Iterrator` trait: one abstract operation
`fn next(&mut self) -> Result<Option<Self::Item>, Self::Error>`,
embedded as a step function over an explicit state type `S`. -/
structure Iterrator (S A E : Type) where
  next : S → Except E (Option A) × S

/-- The `Take` struct: `{ iter: I, n: usize }`.  `S` is the state of the
wrapped iterator; `n` is the remaining count. -/
structure Take (S : Type) where
  iter : S
  n : Nat

/-- The `Map` struct: `{ iter: I, f: F }`.  `S` is the state of the wrapped
iterator and `FS` the mutable state of the `FnMut` closure `f`. -/
structure Map (S FS : Type) where
  iter : S
  f : FS

/-- The `take` adaptor constructor: `Take{iter: self, n}`.  It only builds
the record; the wrapped iterator is stored unchanged and never stepped. -/
def Iterrator.take {S : Type} (s : S) (n : Nat) : Take S :=
  ⟨s, n⟩

/-- The `map` adaptor constructor: `Map{iter: self, f}`.  It only builds
the record; the wrapped iterator is stored unchanged and never stepped. -/
def Iterrator.map {S FS : Type} (s : S) (fs : FS) : Map S FS :=
  ⟨s, fs⟩

/-- `impl Iterrator for Take<I>`: `next` checks `self.n != 0`; if nonzero it
decrements `n` and delegates to the wrapped iterator, returning its result
unchanged; otherwise it returns `Ok(None)` without touching the wrapped
iterator. -/
def Take.next {S A E : Type} (base : Iterrator S A E) (t : Take S) :
    Except E (Option A) × Take S :=
  if t.n ≠ 0 then
    let r := base.next t.iter
    (r.1, ⟨r.2, t.n - 1⟩)
  else
    (Except.ok none, t)

/-- The `Take` wrapper packaged back as an `Iterrator` over state `Take S`. -/
def takeIterr {S A E : Type} (base : Iterrator S A E) : Iterrator (Take S) A E :=
  ⟨Take.next base⟩

/-- `impl Iterrator for Map<I,F>`: `next` is
`Ok(self.iter.next()?.map(&mut self.f))` — the `?` propagates an error
unchanged without consulting `f`; on `Ok(o)` the closure is applied by
`Option::map`, i.e. exactly once when `o` is `Some` and never when it is
`None`.  `fc` is the closure's code, `m.f` its current mutable state. -/
def Map.next {S FS A B E : Type} (base : Iterrator S A E) (fc : FS → A → B × FS)
    (m : Map S FS) : Except E (Option B) × Map S FS :=
  match base.next m.iter with
  | (Except.error e, s') => (Except.error e, ⟨s', m.f⟩)
  | (Except.ok none, s') => (Except.ok none, ⟨s', m.f⟩)
  | (Except.ok (some x), s') =>
    let yfs := fc m.f x
    (Except.ok (some yfs.1), ⟨s', yfs.2⟩)

/-- The `Map` wrapper packaged back as an `Iterrator` over state `Map S FS`. -/
def mapIterr {S FS A B E : Type} (base : Iterrator S A E)
    (fc : FS → A → B × FS) : Iterrator (Map S FS) B E :=
  ⟨Map.next base fc⟩

/-- The terminal `fold`:
`while let Some(x) = self.next()? { accum = f(accum, x) } ; Ok(accum)`.
Fuel bounds the loop; `(none, s)` means the fuel ran out at state `s`.
On `Err(e)` the loop stops at once and the accumulator is discarded. -/
def Iterrator.fold {S A E B : Type} (it : Iterrator S A E) (f : B → A → B) :
    Nat → B → S → Option (Except E B) × S
  | 0, _, s => (none, s)
  | fuel + 1, accum, s =>
    match it.next s with
    | (Except.error e, s') => (some (Except.error e), s')
    | (Except.ok none, s') => (some (Except.ok accum), s')
    | (Except.ok (some x), s') => Iterrator.fold it f fuel (f accum x) s'

/-- The trace of `k` consecutive `next` calls: the list of the `k` outcomes
in order, together with the final state. -/
def steps {S A E : Type} (it : Iterrator S A E) :
    Nat → S → List (Except E (Option A)) × S
  | 0, s => ([], s)
  | k + 1, s =>
    let r := it.next s
    let rest := steps it k r.2
    (r.1 :: rest.1, rest.2)

/-- Instrumentation: the same iterator with a call counter attached to its
state.  Each `next` call increments the counter by one, so an unchanged
counter proves the wrapped iterator was never stepped. -/
def counting {S A E : Type} (it : Iterrator S A E) : Iterrator (S × Nat) A E :=
  ⟨fun p => ((it.next p.1).1, ((it.next p.1).2, p.2 + 1))⟩

/-- The values yielded in a trace, in order: the `Ok(Some(x))` entries. -/
def valuesOf {A E : Type} (rs : List (Except E (Option A))) : List A :=
  rs.filterMap fun r =>
    match r with
    | Except.ok (some x) => some x
    | _ => none

/-- A base iterator yielding the elements of a list then `End` forever. -/
def ofList (A E : Type) : Iterrator (List A) A E :=
  ⟨fun xs =>
    match xs with
    | [] => (Except.ok none, [])
    | x :: rest => (Except.ok (some x), rest)⟩

/-- The test fixture `FailIterator`, generalised to an arbitrary error
value: every `next` call returns `Err(e)`. -/
def failIterr (A E : Type) (e : E) : Iterrator Unit A E :=
  ⟨fun _ => (Except.error e, ())⟩

/-- A base iterator that always reports end-of-sequence. -/
def endIterr (A E : Type) : Iterrator Unit A E :=
  ⟨fun u => (Except.ok none, u)⟩

/-- The test fixture `NumbersIterator(usize)`: `*n += 1; Ok(Some(*n))`,
with the `usize` increment taken modulo `2 ^ 64`. -/
def numbersIterr : Iterrator Nat Nat Unit :=
  ⟨fun n => (Except.ok (some ((n + 1) % 2 ^ 64)), (n + 1) % 2 ^ 64)⟩

/-- Checked machine subtraction on `usize`: `none` models the underflow
panic of a debug-mode `a - b` with `b > a`. -/
def usizeSub (a b : Nat) : Option Nat :=
  if b ≤ a then some (a - b) else none

/-- `Take.next` with the decrement performed by the checked machine
subtraction: `none` would mean `self.n -= 1` underflowed. -/
def Take.nextChecked {S A E : Type} (base : Iterrator S A E) (t : Take S) :
    Option (Except E (Option A) × Take S) :=
  if t.n ≠ 0 then
    match usizeSub t.n 1 with
    | none => none
    | some m =>
      let r := base.next t.iter
      some (r.1, ⟨r.2, m⟩)
  else
    some (Except.ok none, t)

/-- A stateful closure that applies `g` and logs every argument it is
invoked on, in call order.  Used to observe invocation count and order. -/
def logF {A B : Type} (g : A → B) : List A → A → B × List A :=
  fun log x => (g x, log ++ [x])

/-- Finite chains of `take` and `map` adaptors over a base iterator with
state `S0` and item type `A0`.  The indices are the composite state and
item types of the chain. -/
inductive Chain (E S0 A0 : Type) : Type → Type → Type 1 where
  | base : Chain E S0 A0 S0 A0
  | take : {S A : Type} → Chain E S0 A0 S A → Chain E S0 A0 (Take S) A
  | mapc : {S A FS B : Type} → Chain E S0 A0 S A → (FS → A → B × FS) →
      Chain E S0 A0 (Map S FS) B

/-- The iterator denoted by a chain over the base iterator `it0`. -/
def Chain.denote {E S0 A0 S A : Type} (it0 : Iterrator S0 A0 E) :
    Chain E S0 A0 S A → Iterrator S A E
  | Chain.base => it0
  | Chain.take c => takeIterr (Chain.denote it0 c)
  | Chain.mapc c fc => mapIterr (Chain.denote it0 c) fc

/-- The innermost (base) iterator state stored inside a chain state. -/
def Chain.baseState {E S0 A0 S A : Type} :
    Chain E S0 A0 S A → S → S0
  | Chain.base, s => s
  | Chain.take c, s => Chain.baseState c s.iter
  | Chain.mapc c _, s => Chain.baseState c s.iter

/-- A chain state is live when every `Take` layer on the path to the base
still has a nonzero remaining count, i.e. a step of the outermost layer
reaches the base iterator. -/
def Chain.live {E S0 A0 S A : Type} : Chain E S0 A0 S A → S → Prop
  | Chain.base, _ => True
  | Chain.take c, s => s.n ≠ 0 ∧ Chain.live c s.iter
  | Chain.mapc c _, s => Chain.live c s.iter

/-! ### Helper lemmas (shared, not tied to any single claim) -/

/-- A closed `Take` wrapper (remaining count zero) keeps returning `End`
and leaves its whole state — wrapped iterator state included — unchanged,
for any number of consecutive steps. -/
theorem take_closed_steps {S A E : Type} (base : Iterrator S A E) (k : Nat)
    (s : S) :
    steps (takeIterr base) k ⟨s, 0⟩ =
      (List.replicate k (Except.ok none), ⟨s, 0⟩) := by
  induction k with
  | zero => rfl
  | succ k ih =>
    have h : (takeIterr base).next ⟨s, 0⟩ = (Except.ok none, ⟨s, 0⟩) := rfl
    simp [steps, h, ih, List.replicate]

/-- `valuesOf` on a cons distributes as `filterMap` does. -/
theorem valuesOf_cons {A E : Type} (r : Except E (Option A))
    (rs : List (Except E (Option A))) :
    valuesOf (r :: rs) =
      (match r with
        | Except.ok (some x) => some x
        | _ => none).toList ++ valuesOf rs := by
  cases r with
  | error e => simp [valuesOf, List.filterMap_cons]
  | ok o => cases o <;> simp [valuesOf, List.filterMap_cons]

/-- A trace made only of `End` outcomes yields no values. -/
theorem valuesOf_replicate_end {A E : Type} (j : Nat) :
    valuesOf (List.replicate j (Except.ok none) : List (Except E (Option A)))
      = ([] : List A) := by
  induction j with
  | zero => rfl
  | succ j ih => simp [List.replicate, valuesOf_cons, ih]

/-- Driving the `Map` adaptor with the logging closure: the outcomes are the
base outcomes with `g` applied under `Ok(Some(·))`, the base state advances
exactly as if undecorated, and the closure's log grows by precisely the
values the base yielded, in order — so the transformation is invoked
exactly once per yielded value and never on `End` or `Error`. -/
theorem map_steps_log {S A B E : Type} (base : Iterrator S A E) (g : A → B) :
    ∀ (k : Nat) (s : S) (log : List A),
    steps (mapIterr base (logF g)) k ⟨s, log⟩ =
      ((steps base k s).1.map (Except.map (Option.map g)),
        ⟨(steps base k s).2, log ++ valuesOf (steps base k s).1⟩) := by
  intro k
  induction k with
  | zero =>
    intro s log
    simp [steps, valuesOf]
  | succ k ih =>
    intro s log
    rcases h : base.next s with ⟨r, s1⟩
    cases r with
    | error e =>
      have hm : (mapIterr base (logF g)).next ⟨s, log⟩ =
          (Except.error e, ⟨s1, log⟩) := by
        simp [mapIterr, Map.next, h]
      simp [steps, hm, h, ih, valuesOf_cons, Except.map]
    | ok o =>
      cases o with
      | none =>
        have hm : (mapIterr base (logF g)).next ⟨s, log⟩ =
            (Except.ok none, ⟨s1, log⟩) := by
          simp [mapIterr, Map.next, h]
        simp [steps, hm, h, ih, valuesOf_cons, Except.map]
      | some x =>
        have hm : (mapIterr base (logF g)).next ⟨s, log⟩ =
            (Except.ok (some (g x)), ⟨s1, log ++ [x]⟩) := by
          simp [mapIterr, Map.next, h, logF]
        simp [steps, hm, h, ih, valuesOf_cons, Except.map]

/-! ### Claims -/

/-- C1: `fold` repeatedly calls `next`; on `Ok(Some(x))` it sets the
accumulator to `f(accum, x)` and continues, on `Ok(None)` it stops with
`Ok(accum)`, on `Err(e)` it stops at once with `Err(e)`, discarding the
accumulator.  For a source whose every step is `Err(e)`, `fold` returns
`Err(e)` no matter what `f` is (so `f` is never consulted), and — shown
with the call-counting instrumentation — performs exactly one `next` call,
none after the error. -/
theorem claim_C1 :
    (∀ (S A E B : Type) (it : Iterrator S A E) (f : B → A → B) (fuel : Nat)
        (accum : B) (s : S),
      Iterrator.fold it f (fuel + 1) accum s =
        match it.next s with
        | (Except.error e, s') => (some (Except.error e), s')
        | (Except.ok none, s') => (some (Except.ok accum), s')
        | (Except.ok (some x), s') => Iterrator.fold it f fuel (f accum x) s')
    ∧ (∀ (A E B : Type) (e : E) (f g : B → A → B) (fuel : Nat) (accum : B),
        Iterrator.fold (failIterr A E e) f (fuel + 1) accum () =
          (some (Except.error e), ())
        ∧ Iterrator.fold (failIterr A E e) f (fuel + 1) accum () =
            Iterrator.fold (failIterr A E e) g (fuel + 1) accum ())
    ∧ (∀ (A E B : Type) (e : E) (f : B → A → B) (fuel : Nat) (accum : B)
        (c : Nat),
        Iterrator.fold (counting (failIterr A E e)) f (fuel + 1) accum
            ((), c) =
          (some (Except.error e), ((), c + 1))) := by
  refine ⟨fun S A E B it f fuel accum s => ?_, fun A E B e f g fuel accum =>
    ⟨rfl, rfl⟩, fun A E B e f fuel accum c => rfl⟩
  show Iterrator.fold it f (fuel + 1) accum s = _
  rcases h : it.next s with ⟨r, s'⟩
  cases r with
  | error e => simp [Iterrator.fold, h]
  | ok o =>
    cases o with
    | none => simp [Iterrator.fold, h]
    | some x => simp [Iterrator.fold, h]

/-- C2: a step of the `Take` wrapper with nonzero remaining count `n + 1`
decrements the count to `n`, delegates to the wrapped iterator, and
returns its outcome — `Value`, `End` or `Error` alike — unchanged. -/
theorem claim_C2 (S A E : Type) (base : Iterrator S A E) (s : S) (n : Nat) :
    Take.next base ⟨s, n + 1⟩ = ((base.next s).1, ⟨(base.next s).2, n⟩) := by
  simp [Take.next]

/-- C3: once the remaining count is zero, every subsequent step of the
`Take` wrapper returns `End` and leaves the state untouched, however many
times it is stepped; over the call-counting instrumentation the counter
stays fixed, so the wrapped iterator is never invoked, mutated or
queried. -/
theorem claim_C3 (S A E : Type) (base : Iterrator S A E) (k : Nat) (s : S)
    (c : Nat) :
    steps (takeIterr base) k ⟨s, 0⟩ =
        (List.replicate k (Except.ok none), ⟨s, 0⟩)
    ∧ steps (takeIterr (counting base)) k ⟨(s, c), 0⟩ =
        (List.replicate k (Except.ok none), ⟨(s, c), 0⟩) :=
  ⟨take_closed_steps base k s, take_closed_steps (counting base) k (s, c)⟩

/-- C4 as stated is false: the code decrements the remaining count on
*every* step taken while it is nonzero, not only on steps that yield a
`Value`.  Concretely, stepping `take 2` over an always-`End` source
produces the outcome `End` — not a `Value` — yet the remaining count drops
from `2` to `1`. -/
theorem claim_C4_counterexample :
    (Take.next (endIterr Nat Unit) ⟨(), 2⟩).1 = Except.ok none
    ∧ (Take.next (endIterr Nat Unit) ⟨(), 2⟩).2.n = 1
    ∧ (1 : Nat) ≠ 2 :=
  ⟨rfl, rfl, by decide⟩

/-- C4 (amended): the remaining count never increases; it decreases by
exactly 1 per step taken while nonzero, whatever the outcome of that step;
once zero, the wrapper always reports `End` without touching the wrapped
iterator (counter of the counting instrumentation unchanged). -/
theorem claim_C4 (S A E : Type) (base : Iterrator S A E) (t : Take S) (s : S)
    (n c : Nat) :
    (Take.next base t).2.n ≤ t.n
    ∧ (Take.next base ⟨s, n + 1⟩).2.n = n
    ∧ Take.next base ⟨s, 0⟩ = (Except.ok none, ⟨s, 0⟩)
    ∧ Take.next (counting base) ⟨(s, c), 0⟩ =
        (Except.ok none, ⟨(s, c), 0⟩) := by
  refine ⟨?_, by simp [Take.next], by simp [Take.next], by simp [Take.next]⟩
  by_cases h : t.n = 0
  · simp [Take.next, h]
  · simp [Take.next, h]

/-- C7: the `take` and `map` constructors only build a record around the
wrapped iterator: the stored state is the given one, unchanged, and over
the call-counting instrumentation the counter is unchanged, so zero `next`
calls happen during construction. -/
theorem claim_C7 (S FS : Type) (s : S) (c n : Nat) (fs : FS) :
    Iterrator.take ((s, c)) n = ⟨(s, c), n⟩
    ∧ (Iterrator.take ((s, c)) n).iter = (s, c)
    ∧ (Iterrator.take ((s, c)) n).iter.2 = c
    ∧ Iterrator.map ((s, c)) fs = ⟨(s, c), fs⟩
    ∧ (Iterrator.map ((s, c)) fs).iter = (s, c)
    ∧ (Iterrator.map ((s, c)) fs).iter.2 = c :=
  ⟨rfl, rfl, rfl, rfl, rfl, rfl⟩

/-- C10: the decrement in `Take::next` happens only under the guard
`self.n != 0`, so the checked machine subtraction never underflows: on
every `Take` state whatsoever — hence along every sequence of step calls —
the checked step succeeds and agrees with the total model. -/
theorem claim_C10 (S A E : Type) (base : Iterrator S A E) (t : Take S) :
    Take.nextChecked base t = some (Take.next base t) := by
  rcases t with ⟨s, n⟩
  cases n with
  | zero => rfl
  | succ m => simp [Take.nextChecked, Take.next, usizeSub]

/-- C5: a step of the `Map` adaptor delegates to the wrapped iterator; on
`Ok(Some(x))` it returns `Ok(Some(f(x)))` with the closure state advanced
once, and on `Ok(None)` or `Err(e)` it returns that outcome unchanged with
the closure state untouched (`f` not invoked).  Driving the adaptor with a
logging closure shows `f` is invoked exactly once per yielded value, in
element order. -/
theorem claim_C5 :
    (∀ (S FS A B E : Type) (base : Iterrator S A E) (fc : FS → A → B × FS)
        (s : S) (fs : FS),
      Map.next base fc ⟨s, fs⟩ =
        match base.next s with
        | (Except.error e, s') => (Except.error e, ⟨s', fs⟩)
        | (Except.ok none, s') => (Except.ok none, ⟨s', fs⟩)
        | (Except.ok (some x), s') =>
            (Except.ok (some (fc fs x).1), ⟨s', (fc fs x).2⟩))
    ∧ (∀ (S A B E : Type) (base : Iterrator S A E) (g : A → B) (k : Nat)
        (s : S) (log : List A),
      steps (mapIterr base (logF g)) k ⟨s, log⟩ =
        ((steps base k s).1.map (Except.map (Option.map g)),
          ⟨(steps base k s).2, log ++ valuesOf (steps base k s).1⟩)) := by
  refine ⟨fun S FS A B E base fc s fs => ?_,
    fun S A B E base g k s log => map_steps_log base g k s log⟩
  rcases h : base.next s with ⟨r, s'⟩
  cases r with
  | error e => simp [Map.next, h]
  | ok o => cases o <;> simp [Map.next, h]

/-- C6: in any chain of `take` and `map` adaptors, an error produced by the
innermost iterator's step surfaces unchanged at the outermost layer's step:
whenever the chain state is live (every `Take` layer nonzero, so the base
is actually consulted) and the base errors with `e`, the outermost step
returns exactly `Error e`. -/
theorem claim_C6 {E S0 A0 S A : Type} (c : Chain E S0 A0 S A)
    (it0 : Iterrator S0 A0 E) :
    ∀ (s : S) (e : E), Chain.live c s →
      (it0.next (Chain.baseState c s)).1 = Except.error e →
      ((Chain.denote it0 c).next s).1 = Except.error e := by
  induction c with
  | base =>
    intro s e _ he
    exact he
  | take c ih =>
    intro s e hl he
    rcases s with ⟨si, n⟩
    rcases hl with ⟨hn, hl⟩
    have hi := ih si e hl he
    simp [Chain.denote, takeIterr, Take.next, hn]
    exact hi
  | mapc c fc ih =>
    intro s e hl he
    rcases s with ⟨si, fs⟩
    have hi := ih si e hl he
    rcases h2 : (Chain.denote it0 c).next si with ⟨r, s'⟩
    rw [h2] at hi
    simp only at hi
    subst hi
    simp [Chain.denote, mapIterr, Map.next, h2]

/-- Witness for C6 at a concrete live chain: `base.take(1).map(x * 2)` over
an always-failing source with error `7`. -/
theorem claim_C6_witness :
    ((Chain.denote (failIterr Nat Nat 7)
        (Chain.mapc (Chain.take Chain.base)
          (fun (u : Unit) (x : Nat) => (x * 2, u)))).next
      ⟨⟨(), 1⟩, ()⟩).1 = Except.error 7 :=
  claim_C6 (Chain.mapc (Chain.take Chain.base)
      (fun (u : Unit) (x : Nat) => (x * 2, u)))
    (failIterr Nat Nat 7) ⟨⟨(), 1⟩, ()⟩ 7 ⟨Nat.one_ne_zero, trivial⟩ rfl

/-- Over a source that always yields a value, `take n` driven for `n + j`
steps yields exactly `n` values and then only `End` outcomes. -/
theorem take_unbounded_steps {S A E : Type} (base : Iterrator S A E)
    (hb : ∀ s, ∃ x s', base.next s = (Except.ok (some x), s')) :
    ∀ (n j : Nat) (s : S),
      (valuesOf (steps (takeIterr base) (n + j) ⟨s, n⟩).1).length = n
      ∧ (steps (takeIterr base) (n + j) ⟨s, n⟩).1.drop n =
          List.replicate j (Except.ok none) := by
  intro n
  induction n with
  | zero =>
    intro j s
    have h := take_closed_steps base j s
    constructor
    · simp [Nat.zero_add, h, valuesOf_replicate_end]
    · simp [Nat.zero_add, h]
  | succ n ih =>
    intro j s
    obtain ⟨x, s', hx⟩ := hb s
    have h1 : (takeIterr base).next ⟨s, n + 1⟩ =
        (Except.ok (some x), ⟨s', n⟩) := by
      simp [takeIterr, Take.next, hx]
    have harith : n + 1 + j = (n + j) + 1 := by omega
    rw [harith]
    have hrec := ih j s'
    constructor
    · simp [steps, h1, valuesOf_cons, hrec.1]
    · simp [steps, h1, hrec.2]

/-- `take n` over the list source with an exhausted list keeps returning
`End`, whatever the remaining count. -/
theorem take_nil_steps {A E : Type} :
    ∀ (j n : Nat),
      (steps (takeIterr (ofList A E)) j ⟨[], n⟩).1 =
        List.replicate j (Except.ok none) := by
  intro j
  induction j with
  | zero => intro n; rfl
  | succ j ih =>
    intro n
    cases n with
    | zero =>
      have h : (takeIterr (ofList A E)).next ⟨[], 0⟩ =
          (Except.ok none, ⟨[], 0⟩) := rfl
      simp [steps, h, ih, List.replicate]
    | succ m =>
      have h : (takeIterr (ofList A E)).next ⟨[], m + 1⟩ =
          (Except.ok none, ⟨[], m⟩) := by
        simp [takeIterr, Take.next, ofList]
      simp [steps, h, ih, List.replicate]

/-- Bound exactness over the list source: `take n` driven for
`min n (length xs) + j` steps yields exactly the first `min n (length xs)`
elements of the list, then only `End` outcomes. -/
theorem take_list_steps {A E : Type} :
    ∀ (n : Nat) (xs : List A) (j : Nat),
      (steps (takeIterr (ofList A E)) (min n xs.length + j) ⟨xs, n⟩).1 =
        (xs.take n).map (fun x => Except.ok (some x)) ++
          List.replicate j (Except.ok none) := by
  intro n
  induction n with
  | zero =>
    intro xs j
    have h := take_closed_steps (ofList A E) j xs
    simp [h]
  | succ n ih =>
    intro xs j
    cases xs with
    | nil =>
      simp [take_nil_steps]
    | cons x rest =>
      have h1 : (takeIterr (ofList A E)).next ⟨x :: rest, n + 1⟩ =
          (Except.ok (some x), ⟨rest, n⟩) := by
        simp [takeIterr, Take.next, ofList]
      have harith : min (n + 1) (x :: rest).length + j =
          (min n rest.length + j) + 1 := by
        simp [List.length_cons, Nat.succ_min_succ]
        omega
      rw [harith]
      simp [steps, h1, ih rest j]

/-- C8: `take n` over an unbounded source yields exactly `n` values then
only `End`; over a source yielding the list `xs` then `End` it yields
exactly `min n (length xs)` values — the first ones, in order — then only
`End`; for `n = 0` no call reaches the wrapped source (counter unchanged);
and the concrete test: numbers `1,2,3,...` bounded by `take 5` folded with
`+` from `0` gives `Ok(15)`. -/
theorem claim_C8 :
    (∀ (S A E : Type) (base : Iterrator S A E),
      (∀ s, ∃ x s', base.next s = (Except.ok (some x), s')) →
      ∀ (n j : Nat) (s : S),
        (valuesOf (steps (takeIterr base) (n + j) ⟨s, n⟩).1).length = n
        ∧ (steps (takeIterr base) (n + j) ⟨s, n⟩).1.drop n =
            List.replicate j (Except.ok none))
    ∧ (∀ (A E : Type) (n : Nat) (xs : List A) (j : Nat),
        (steps (takeIterr (ofList A E)) (min n xs.length + j) ⟨xs, n⟩).1 =
          (xs.take n).map (fun x => Except.ok (some x)) ++
            List.replicate j (Except.ok none))
    ∧ (∀ (S A E : Type) (base : Iterrator S A E) (j : Nat) (s : S) (c : Nat),
        steps (takeIterr (counting base)) j ⟨(s, c), 0⟩ =
          (List.replicate j (Except.ok none), ⟨(s, c), 0⟩))
    ∧ Iterrator.fold (takeIterr numbersIterr) (fun a b => a + b) 6 0 ⟨0, 5⟩ =
        (some (Except.ok 15), ⟨5, 0⟩) := by
  refine ⟨fun S A E base hb => take_unbounded_steps base hb,
    fun A E n xs j => take_list_steps n xs j,
    fun S A E base j s c => take_closed_steps (counting base) j (s, c),
    ?_⟩
  rfl

/-- Witness for C8's unbounded conjunct at the concrete numbers source with
`n = 2`, `j = 1`. -/
theorem claim_C8_witness :
    (valuesOf (steps (takeIterr numbersIterr) (2 + 1) ⟨0, 2⟩).1).length = 2
    ∧ (steps (takeIterr numbersIterr) (2 + 1) ⟨0, 2⟩).1.drop 2 =
        List.replicate 1 (Except.ok none) :=
  claim_C8.1 Nat Nat Unit numbersIterr
    (fun s => ⟨(s + 1) % 2 ^ 64, (s + 1) % 2 ^ 64, rfl⟩) 2 1 0

/-- C9: `i.take(m).take(n)` is observably equivalent to `i.take(min m n)`:
driven from equal initial base states, the two produce identical sequences
of step outcomes, for every number of steps. -/
theorem claim_C9 (S A E : Type) (base : Iterrator S A E) :
    ∀ (k : Nat) (s : S) (m n : Nat),
      (steps (takeIterr (takeIterr base)) k ⟨⟨s, m⟩, n⟩).1 =
        (steps (takeIterr base) k ⟨s, min m n⟩).1 := by
  intro k
  induction k with
  | zero => intro s m n; rfl
  | succ k ih =>
    intro s m n
    cases n with
    | zero =>
      have h1 : (takeIterr (takeIterr base)).next ⟨⟨s, m⟩, 0⟩ =
          (Except.ok none, ⟨⟨s, m⟩, 0⟩) := rfl
      have h2 : (takeIterr base).next ⟨s, 0⟩ =
          (Except.ok none, ⟨s, 0⟩) := rfl
      have h3 := ih s m 0
      rw [Nat.min_zero] at h3 ⊢
      simp [steps, h1, h2, h3]
    | succ n' =>
      cases m with
      | zero =>
        have h1 : (takeIterr (takeIterr base)).next ⟨⟨s, 0⟩, n' + 1⟩ =
            (Except.ok none, ⟨⟨s, 0⟩, n'⟩) := by
          simp [takeIterr, Take.next]
        have h2 : (takeIterr base).next ⟨s, 0⟩ =
            (Except.ok none, ⟨s, 0⟩) := rfl
        have h3 := ih s 0 n'
        rw [Nat.zero_min] at h3
        rw [Nat.zero_min]
        simp [steps, h1, h2, h3]
      | succ m' =>
        rcases hb : base.next s with ⟨r, s2⟩
        have h1 : (takeIterr (takeIterr base)).next ⟨⟨s, m' + 1⟩, n' + 1⟩ =
            (r, ⟨⟨s2, m'⟩, n'⟩) := by
          simp [takeIterr, Take.next, hb]
        have h2 : (takeIterr base).next ⟨s, min m' n' + 1⟩ =
            (r, ⟨s2, min m' n'⟩) := by
          simp [takeIterr, Take.next, hb]
        rw [Nat.succ_min_succ]
        simp [steps, h1, h2, ih]

end IterrSpec
